import Mathlib

/-!
Shallow embedding of the message-text recovery engine of
`message_exporter.py` (functions `extract_complete_text`,
`clean_extracted_text`, and the inline text-recovery / sorting logic of
`export_messages`).  Strings are modelled as `List Char`; the Python
regular expressions used by the source are modelled by explicit scanning
functions whose semantics follow the Python `re` engine on the concrete
patterns of the source.  The model restricts Python's Unicode-aware
character classes (`\s`, `str.isalpha`, `str.lower`) to their behaviour
on the ASCII range plus the common Unicode whitespace code points.
-/

/-- Python whitespace (`\s` in `re`, and the characters removed by
`str.strip`): tab..carriage-return, space, the file/group/record/unit
separators, NEL, NBSP and the usual Unicode space code points. -/
def pyIsSpace (c : Char) : Bool :=
  let n := c.toNat
  decide ((9 ≤ n ∧ n ≤ 13) ∨ n = 32 ∨ (28 ≤ n ∧ n ≤ 31) ∨ n = 133 ∨ n = 160 ∨
    n = 5760 ∨ (8192 ≤ n ∧ n ≤ 8202) ∨ n = 8232 ∨ n = 8233 ∨ n = 8239 ∨
    n = 8287 ∨ n = 12288)

/-- ASCII letter, the class `[A-Za-z]` of the source's patterns (and the
model of `str.isalpha` on ASCII data). -/
def isLetterChar (c : Char) : Bool :=
  let n := c.toNat
  decide ((65 ≤ n ∧ n ≤ 90) ∨ (97 ≤ n ∧ n ≤ 122))

/-- ASCII digit, the class `[0-9]`. -/
def isDigitChar (c : Char) : Bool :=
  let n := c.toNat
  decide (48 ≤ n ∧ n ≤ 57)

/-- Lower-case hexadecimal digit, the class `[0-9a-f]` of the prefix-strip
patterns in `clean_extracted_text`. -/
def isHexChar (c : Char) : Bool :=
  let n := c.toNat
  decide ((48 ≤ n ∧ n ≤ 57) ∨ (97 ≤ n ∧ n ≤ 102))

/-- Code points of the punctuation characters that the two big character
classes of `extract_complete_text` admit besides letters, digits and
whitespace, namely (in source order)
`. , ! ? @ # $ % ^ & * ( ) _ + - = [ ] { } | ; : " ' < > / ~` and the
backquote. -/
def charsetPunctCodes : List Nat :=
  [46, 44, 33, 63, 64, 35, 36, 37, 94, 38, 42, 40, 41, 95, 43, 45, 61,
   91, 93, 123, 125, 124, 59, 58, 34, 39, 60, 62, 47, 126, 96]

/-- Membership in the character class
`[A-Za-z0-9\s\.,!?@#$%^&*()_+\-=\[\]{}|;:"\x27<>?/~\x60]` used by the
first two patterns of `extract_complete_text`. -/
def isCharsetChar (c : Char) : Bool :=
  isLetterChar c || isDigitChar c || pyIsSpace c || charsetPunctCodes.contains c.toNat

/-- Membership in the class `[A-Za-z\s]` of the third pattern. -/
def isLetterOrSpaceChar (c : Char) : Bool :=
  isLetterChar c || pyIsSpace c

/-- ASCII model of `str.lower`, used for the case-insensitive
`streamtyped` containment test of the matcher's filter. -/
def pyToLowerChar (c : Char) : Char :=
  if decide (65 ≤ c.toNat ∧ c.toNat ≤ 90) then Char.ofNat (c.toNat + 32) else c

/-- Boolean prefix test on character lists (`str.startswith`). -/
def isPrefL : List Char → List Char → Bool
  | [], _ => true
  | _ :: _, [] => false
  | p :: ps, c :: cs => p == c && isPrefL ps cs

/-- Boolean contiguous-substring test on character lists (Python's
`pat in s`). -/
def containsL (pat : List Char) : List Char → Bool
  | [] => pat.isEmpty
  | c :: cs => isPrefL pat (c :: cs) || containsL pat cs

/-- Left part of `str.strip`: drop leading Python whitespace. -/
def lstripPy (l : List Char) : List Char := l.dropWhile pyIsSpace

/-- Right part of `str.strip`: drop trailing Python whitespace. -/
def rstripPy (l : List Char) : List Char := (l.reverse.dropWhile pyIsSpace).reverse

/-- Python `str.strip`: remove leading and trailing whitespace. -/
def pyStrip (l : List Char) : List Char := rstripPy (lstripPy l)

/-- The literal `NSString` head of the first pattern of
`extract_complete_text`. -/
def nsLit : List Char := "NSString".toList

/-- Search that models `.*?([charset]{8,})` after an `NSString` literal:
the lazy `.*?` advances until the greedy group can take a run of at
least 8 charset characters (the group itself may start at a newline,
since the class contains `\s`).  A charset run shorter than 8 yields no
group anywhere inside it; `.*?` can step over it only when it contains
no newline, because `.` does not match newlines (a non-charset character
is never a newline, so it can always be stepped over).  Returns the
group and the rest of the input after it.  The fuel argument only forces
termination; it is initialised to the input length, which every call
consumes faster than. -/
def nsGroupSearchF : Nat → List Char → Option (List Char × List Char)
  | _, [] => none
  | 0, _ :: _ => none
  | fuel + 1, c :: cs =>
    if isCharsetChar c then
      let run := c :: cs.takeWhile isCharsetChar
      if 8 ≤ run.length then some (run, cs.dropWhile isCharsetChar)
      else if run.contains '\n' then none
      else nsGroupSearchF fuel (cs.dropWhile isCharsetChar)
    else nsGroupSearchF fuel cs

/-- Wrapper of `nsGroupSearchF` at adequate fuel. -/
def nsGroupSearch (l : List Char) : Option (List Char × List Char) :=
  nsGroupSearchF l.length l

/-- The matches, in order, of the source's first pattern
`NSString.*?([charset]{8,})` (`re.findall` semantics: leftmost match,
scanning resumes after each match, the capture group is reported). -/
def findallP1F : Nat → List Char → List (List Char)
  | _, [] => []
  | 0, _ :: _ => []
  | fuel + 1, c :: cs =>
    if isPrefL nsLit (c :: cs) then
      match nsGroupSearch ((c :: cs).drop 8) with
      | some (g, rest) => g :: findallP1F fuel rest
      | none => findallP1F fuel cs
    else findallP1F fuel cs

/-- Wrapper of `findallP1F` at adequate fuel. -/
def findallP1 (l : List Char) : List (List Char) := findallP1F l.length l

/-- The matches, in order, of the source's second pattern
`([charset]{10,})`: the maximal runs of charset characters of length at
least 10. -/
def findallP2F : Nat → List Char → List (List Char)
  | _, [] => []
  | 0, _ :: _ => []
  | fuel + 1, c :: cs =>
    if isCharsetChar c then
      let run := c :: cs.takeWhile isCharsetChar
      let rest := cs.dropWhile isCharsetChar
      if 10 ≤ run.length then run :: findallP2F fuel rest
      else findallP2F fuel rest
    else findallP2F fuel cs

/-- Wrapper of `findallP2F` at adequate fuel. -/
def findallP2 (l : List Char) : List (List Char) := findallP2F l.length l

/-- The matches, in order, of the source's third pattern
`([A-Za-z]{4,}\s+[A-Za-z\s]{4,})`: at a maximal letter run of length at
least 4 followed by a whitespace character, the greedy quantifiers with
backtracking always extend the match to the end of the maximal
letters-and-whitespace run after the letters, provided that run keeps at
least one whitespace character for `\s+` and 4 characters for the final
class, i.e. has length at least 5. -/
def findallP3F : Nat → List Char → List (List Char)
  | _, [] => []
  | 0, _ :: _ => []
  | fuel + 1, c :: cs =>
    if isLetterChar c then
      let letters := c :: cs.takeWhile isLetterChar
      let afterL := cs.dropWhile isLetterChar
      let mixed := afterL.takeWhile isLetterOrSpaceChar
      let rest := afterL.dropWhile isLetterOrSpaceChar
      if 4 ≤ letters.length ∧ 5 ≤ mixed.length then
        (letters ++ mixed) :: findallP3F fuel rest
      else findallP3F fuel afterL
    else findallP3F fuel cs

/-- Wrapper of `findallP3F` at adequate fuel. -/
def findallP3 (l : List Char) : List (List Char) := findallP3F l.length l

/-- The rejection filter of `extract_complete_text`: length above 7, not
all control characters, no structural prefix (`NS`, `class`, `$`,
`null`), no `streamtyped` (case-insensitively) and no `utableData`
substring. -/
def filter_ok (m : List Char) : Bool :=
  decide (7 < m.length)
  && !(m.all (fun c => decide (c.toNat < 32)))
  && !(isPrefL ("NS".toList) m)
  && !(isPrefL ("class".toList) m)
  && !(isPrefL ("$".toList) m)
  && !(isPrefL ("null".toList) m)
  && !(containsL ("streamtyped".toList) (m.map pyToLowerChar))
  && !(containsL ("utableData".toList) m)

/-- Scan of one pattern's match list: return the stripped first match
that passes the rejection filter (the `for match in matches` loop with
`return match.strip()`). -/
def firstMatch : List (List Char) → Option (List Char)
  | [] => none
  | m :: ms => if filter_ok m then some (pyStrip m) else firstMatch ms

/-- The source's `extract_complete_text`: `None` on an empty (falsy)
input, otherwise the patterns are tried in order and the first filtered
match of the first pattern that yields one is returned, stripped. -/
def extract_complete_text (s : List Char) : Option (List Char) :=
  if s = [] then none
  else
    match firstMatch (findallP1 s) with
    | some r => some r
    | none =>
      match firstMatch (findallP2 s) with
      | some r => some r
      | none => firstMatch (findallP3 s)

/-- Single-quote character, written by code point to keep string
literals apostrophe-free. -/
def quoteChar : Char := Char.ofNat 39

/-- Head literal of the first removal pattern of `clean_extracted_text`
(the class-description fragment), i.e. a single quote followed by
`()*Z$classnameX$classes`. -/
def fragClassHead : List Char := quoteChar :: "()*Z$classnameX$classes".toList

/-- Head literal of the second removal pattern (the punctuation
fragment), i.e. a single quote followed by `-./4:>?`. -/
def fragDotsHead : List Char := quoteChar :: "-./4:>?".toList

/-- The `streamtyped` literal removed by `clean_extracted_text`. -/
def streamtypedLit : List Char := "streamtyped".toList

/-- The `utableData` literal removed by `clean_extracted_text`. -/
def utableLit : List Char := "utableData".toList

/-- Model of `re.sub(pat, "", s)` for a fixed literal pattern: removes
the non-overlapping occurrences of `pat`, scanning left to right.  The
fuel argument only forces termination; every use initialises it to the
input length and uses a non-empty pattern, which makes it adequate. -/
def removeAllLF (pat : List Char) : Nat → List Char → List Char
  | _, [] => []
  | 0, l => l
  | fuel + 1, c :: cs =>
    if isPrefL pat (c :: cs) then removeAllLF pat fuel ((c :: cs).drop pat.length)
    else c :: removeAllLF pat fuel cs

/-- Wrapper of `removeAllLF` at adequate fuel. -/
def removeAllL (pat l : List Char) : List Char := removeAllLF pat l.length l

/-- Model of `re.sub(head ++ "[^...]*", "", s)` for the two
quote-fragment patterns: at each occurrence of the head literal the
match extends greedily over the following characters up to (excluding)
the next single quote, and the whole match is removed; scanning is left
to right over non-overlapping matches. -/
def removeFragAllLF (hd : List Char) : Nat → List Char → List Char
  | _, [] => []
  | 0, l => l
  | fuel + 1, c :: cs =>
    if isPrefL hd (c :: cs) then
      removeFragAllLF hd fuel (((c :: cs).drop hd.length).dropWhile (fun d => d != quoteChar))
    else c :: removeFragAllLF hd fuel cs

/-- Wrapper of `removeFragAllLF` at adequate fuel. -/
def removeFragAllL (hd l : List Char) : List Char := removeFragAllLF hd l.length l

/-- The four `re.sub` removals of `clean_extracted_text`, in source
order: class-description fragment, punctuation fragment, `streamtyped`,
`utableData`. -/
def removeMarkers (l : List Char) : List Char :=
  removeAllL utableLit (removeAllL streamtypedLit
    (removeFragAllL fragDotsHead (removeFragAllL fragClassHead l)))

/-- Model of `re.sub(r"^x[0-9a-f]+[+#]", "", s)`: strip a leading `x`,
one or more hex digits and a `+` or `#` marker, when present. -/
def strip_hex_marker (l : List Char) : List Char :=
  match l with
  | 'x' :: rest =>
    let hex := rest.takeWhile isHexChar
    match rest.dropWhile isHexChar with
    | m :: tl => if hex ≠ [] ∧ (m = '+' ∨ m = '#') then tl else l
    | [] => l
  | _ => l

/-- Model of `re.sub(r"^x[0-9a-f]+", "", s)`: strip a leading `x`
followed by one or more hex digits, when present. -/
def strip_hex_bare (l : List Char) : List Char :=
  match l with
  | 'x' :: rest =>
    if rest.takeWhile isHexChar ≠ [] then rest.dropWhile isHexChar else l
  | _ => l

/-- The source's `clean_extracted_text`: `None` on falsy input; strip
the two hex prefixes; reject length-two-or-less all-alphabetic
artifacts; remove the binary markers; strip whitespace; reject results
shorter than 3 characters. -/
def clean_extracted_text (t : List Char) : Option (List Char) :=
  if t = [] then none
  else
    let c1 := strip_hex_bare (strip_hex_marker t)
    if c1.length ≤ 2 ∧ c1 ≠ [] ∧ c1.all isLetterChar then none
    else
      let c2 := pyStrip (removeMarkers c1)
      if c2.length < 3 then none else some c2

/-- The archive branch of the orchestrator: an absent blob yields no
candidate, otherwise its textual form is fed to
`extract_complete_text`. -/
def matchArchive : Option (List Char) → Option (List Char)
  | some b => extract_complete_text b
  | none => none

/-- The per-record text-recovery logic inlined in `export_messages`
(the spec's `recoverText`): a truthy plain-text field with truthy strip
is used directly, otherwise the archive blob's textual form is matched;
a truthy candidate is cleaned, and the cleaner's result is the recovered
text. -/
def recoverText (plainText archiveText : Option (List Char)) : Option (List Char) :=
  let complete : Option (List Char) :=
    match plainText with
    | some t => if t ≠ [] ∧ pyStrip t ≠ [] then some t else matchArchive archiveText
    | none => matchArchive archiveText
  match complete with
  | some ct => if ct ≠ [] then clean_extracted_text ct else none
  | none => none

/-- A cleaned message record as assembled by `export_messages`. -/
structure CleanMessage where
  rowid : Int
  date : Int
  is_from_me : Bool
  readable_date : List Char
  text : List Char
  service : Option (List Char)
  has_attachments : Bool
deriving DecidableEq

/-- Stable insertion of a record into an already sorted accumulator:
the record goes after every record whose date is less than or equal to
its own. -/
def insertMsg (r : CleanMessage) : List CleanMessage → List CleanMessage
  | [] => [r]
  | x :: xs => if x.date ≤ r.date then x :: insertMsg r xs else r :: x :: xs

/-- Model of `clean_messages.sort(key=lambda x: x[date])`: Python's
`list.sort` is an ascending stable sort on the key, here realised as a
left fold of stable insertions. -/
def sortMessages (l : List CleanMessage) : List CleanMessage :=
  l.foldl (fun acc r => insertMsg r acc) []

/-- Candidate list concatenation formulation of the matcher, following
the specification's words: the first candidate, in order of appearance,
that passes the rejection filter, with pattern (a)'s matches tried
exhaustively before pattern (b)'s, then pattern (c)'s. -/
def matchArchiveTextSpec (s : List Char) : Option (List Char) :=
  if s = [] then none
  else Option.map pyStrip ((findallP1 s ++ findallP2 s ++ findallP3 s).find? filter_ok)

/-- Removal step following the specification's words: remove exactly
the known marker substrings (the two fragment head literals, the
archive-format name, the container type name) wherever they occur,
leaving all other characters in place. -/
def removeMarkersSpec (l : List Char) : List Char :=
  removeAllL utableLit (removeAllL streamtypedLit
    (removeAllL fragDotsHead (removeAllL fragClassHead l)))

/-- Decides whether a string starts with the bare hex prefix
`x[0-9a-f]+` that `clean_extracted_text` strips. -/
def hasHexPref (l : List Char) : Bool :=
  match l with
  | 'x' :: rest => !(rest.takeWhile isHexChar).isEmpty
  | _ => false

/-- Decides that none of the cleaner's marker literals occurs in the
string. -/
def noMarkerOccurs (l : List Char) : Bool :=
  !containsL fragClassHead l && !containsL fragDotsHead l &&
  !containsL streamtypedLit l && !containsL utableLit l

/-- Decides that the string contains no run of 8 or more consecutive
charset (printable) characters: at every position, the maximal charset
run starting there is shorter than 8. -/
def noRun8 : List Char → Bool
  | [] => true
  | c :: cs => decide (((c :: cs).takeWhile isCharsetChar).length < 8) && noRun8 cs

/-! Lemmas about `pyStrip`. -/

theorem dropWhile_idem (p : Char → Bool) (l : List Char) :
    (l.dropWhile p).dropWhile p = l.dropWhile p := by
  cases h : l.dropWhile p with
  | nil => simp
  | cons a t =>
    have ha : p a = false := by
      have hw := List.head_dropWhile_not p l (by simp [h])
      simpa [h] using hw
    simp [List.dropWhile_cons, ha]

theorem rstripPy_prefixes (l : List Char) : rstripPy l <+: l := by
  unfold rstripPy
  rw [← List.reverse_suffix]
  simpa using List.dropWhile_suffix (l := l.reverse) pyIsSpace

theorem rstripPy_idem (l : List Char) : rstripPy (rstripPy l) = rstripPy l := by
  unfold rstripPy
  rw [List.reverse_reverse, dropWhile_idem]

theorem lstripPy_pyStrip (l : List Char) : lstripPy (pyStrip l) = pyStrip l := by
  unfold pyStrip
  cases h : rstripPy (lstripPy l) with
  | nil => simp [lstripPy]
  | cons a t =>
    have hpre : rstripPy (lstripPy l) <+: lstripPy l := rstripPy_prefixes _
    rw [h] at hpre
    have hn : lstripPy l ≠ [] := by
      intro hnil
      rw [hnil] at hpre
      exact absurd (List.prefix_nil.mp hpre) (by simp)
    have hh : (a :: t).head (by simp) = (lstripPy l).head hn := List.IsPrefix.head hpre (by simp)
    have hna : pyIsSpace ((lstripPy l).head hn) = false :=
      List.head_dropWhile_not pyIsSpace l hn
    simp only [List.head_cons] at hh
    rw [← hh] at hna
    simp [lstripPy, List.dropWhile_cons, hna]

theorem pyStrip_idem (l : List Char) : pyStrip (pyStrip l) = pyStrip l := by
  conv_lhs => rw [pyStrip, lstripPy_pyStrip]
  conv_lhs => rw [pyStrip]
  rw [rstripPy_idem]
  rfl

theorem pyStrip_length_le (l : List Char) : (pyStrip l).length ≤ l.length := by
  have h1 : (pyStrip l).length ≤ (lstripPy l).length :=
    (rstripPy_prefixes (lstripPy l)).length_le
  have h2 : (lstripPy l).length ≤ l.length :=
    (List.dropWhile_suffix (l := l) pyIsSpace).length_le
  omega

theorem pyStrip_nil : pyStrip ([] : List Char) = [] := rfl

theorem ne_nil_of_pyStrip_ne_nil {l : List Char} (h : pyStrip l ≠ []) : l ≠ [] := by
  intro hl
  rw [hl] at h
  exact h pyStrip_nil

/-! Lemmas about containment and the literal-removal substitutions. -/

theorem containsL_cons_false {pat : List Char} {c : Char} {cs : List Char}
    (h : containsL pat (c :: cs) = false) :
    isPrefL pat (c :: cs) = false ∧ containsL pat cs = false := by
  unfold containsL at h
  exact ⟨by simp_all, by simp_all⟩

theorem removeAllLF_of_not_contains (pat : List Char) :
    ∀ fuel l, l.length ≤ fuel → containsL pat l = false → removeAllLF pat fuel l = l := by
  intro fuel
  induction fuel with
  | zero =>
    intro l hl _
    have : l = [] := List.length_eq_zero.mp (Nat.le_zero.mp hl)
    subst this
    rfl
  | succ n ih =>
    intro l hl hc
    cases l with
    | nil => rfl
    | cons c cs =>
      obtain ⟨h1, h2⟩ := containsL_cons_false hc
      unfold removeAllLF
      rw [h1]
      simp only [Bool.false_eq_true, if_false]
      rw [ih cs (by simpa using Nat.lt_succ_iff.mp (Nat.lt_of_lt_of_le (by simp) hl)) h2]

theorem removeAllL_of_not_contains {pat l : List Char} (h : containsL pat l = false) :
    removeAllL pat l = l :=
  removeAllLF_of_not_contains pat l.length l le_rfl h

theorem removeFragAllLF_of_not_contains (hd : List Char) :
    ∀ fuel l, l.length ≤ fuel → containsL hd l = false → removeFragAllLF hd fuel l = l := by
  intro fuel
  induction fuel with
  | zero =>
    intro l hl _
    have : l = [] := List.length_eq_zero.mp (Nat.le_zero.mp hl)
    subst this
    rfl
  | succ n ih =>
    intro l hl hc
    cases l with
    | nil => rfl
    | cons c cs =>
      obtain ⟨h1, h2⟩ := containsL_cons_false hc
      unfold removeFragAllLF
      rw [h1]
      simp only [Bool.false_eq_true, if_false]
      rw [ih cs (by simpa using Nat.lt_succ_iff.mp (Nat.lt_of_lt_of_le (by simp) hl)) h2]

theorem removeFragAllL_of_not_contains {hd l : List Char} (h : containsL hd l = false) :
    removeFragAllL hd l = l :=
  removeFragAllLF_of_not_contains hd l.length l le_rfl h

theorem noMarkerOccurs_split {l : List Char} (h : noMarkerOccurs l = true) :
    containsL fragClassHead l = false ∧ containsL fragDotsHead l = false ∧
    containsL streamtypedLit l = false ∧ containsL utableLit l = false := by
  unfold noMarkerOccurs at h
  simp only [Bool.and_eq_true, Bool.not_eq_true'] at h
  exact ⟨h.1.1.1, h.1.1.2, h.1.2, h.2⟩

theorem removeMarkers_of_no_marker {l : List Char} (h : noMarkerOccurs l = true) :
    removeMarkers l = l := by
  obtain ⟨h1, h2, h3, h4⟩ := noMarkerOccurs_split h
  unfold removeMarkers
  rw [removeFragAllL_of_not_contains h1, removeFragAllL_of_not_contains h2,
    removeAllL_of_not_contains h3, removeAllL_of_not_contains h4]

/-! Lemmas about the hex-prefix strips and the cleaner. -/


/-! Lemmas about the hex-prefix strips and the cleaner. -/

theorem strip_hex_marker_of_no_pref {l : List Char} (h : hasHexPref l = false) :
    strip_hex_marker l = l := by
  unfold strip_hex_marker
  unfold hasHexPref at h
  split
  · next rest =>
    simp only [Bool.not_eq_false', List.isEmpty_iff] at h
    cases hr : rest.dropWhile isHexChar with
    | nil => simp
    | cons m tl => simp [h]
  · rfl

theorem strip_hex_bare_of_no_pref {l : List Char} (h : hasHexPref l = false) :
    strip_hex_bare l = l := by
  unfold strip_hex_bare
  unfold hasHexPref at h
  split
  · next rest =>
    simp only [Bool.not_eq_false', List.isEmpty_iff] at h
    simp [h]
  · rfl

theorem clean_some {s t : List Char} (h : clean_extracted_text s = some t) :
    t = pyStrip (removeMarkers (strip_hex_bare (strip_hex_marker s))) ∧ 3 ≤ t.length := by
  simp only [clean_extracted_text] at h
  split at h
  · exact absurd h (by simp)
  · split at h
    · exact absurd h (by simp)
    · split at h
      · exact absurd h (by simp)
      · next hlen =>
        cases h
        exact ⟨rfl, by omega⟩

theorem clean_fixedpoint {t : List Char} (hx : hasHexPref t = false)
    (hm : noMarkerOccurs t = true) (hs : pyStrip t = t) (hl : 3 ≤ t.length) :
    clean_extracted_text t = some t := by
  have hne : t ≠ [] := by rintro rfl; simp at hl
  simp only [clean_extracted_text, strip_hex_marker_of_no_pref hx,
    strip_hex_bare_of_no_pref hx, removeMarkers_of_no_marker hm, hs]
  rw [if_neg hne, if_neg (by rintro ⟨h2, -, -⟩; omega), if_neg (by omega)]

theorem recoverText_clean {p a : Option (List Char)} {t : List Char}
    (h : recoverText p a = some t) : ∃ ct, clean_extracted_text ct = some t := by
  unfold recoverText at h
  cases p with
  | none =>
    cases ha : matchArchive a with
    | none => rw [ha] at h; exact absurd h (by simp)
    | some b =>
      rw [ha] at h
      simp only [] at h
      by_cases hb : b = []
      · subst hb; simp at h
      · rw [if_pos (by simpa using hb)] at h
        exact ⟨b, h⟩
  | some tp =>
    simp only [] at h
    by_cases hc : tp ≠ [] ∧ pyStrip tp ≠ []
    · rw [if_pos hc] at h
      simp only [] at h
      rw [if_pos hc.1] at h
      exact ⟨tp, h⟩
    · rw [if_neg hc] at h
      cases ha : matchArchive a with
      | none => rw [ha] at h; exact absurd h (by simp)
      | some b =>
        rw [ha] at h
        simp only [] at h
        by_cases hb : b = []
        · subst hb; simp at h
        · rw [if_pos (by simpa using hb)] at h
          exact ⟨b, h⟩

theorem recoverText_plain {t : List Char} (a : Option (List Char))
    (h1 : pyStrip t ≠ []) :
    recoverText (some t) a = clean_extracted_text t := by
  unfold recoverText
  have ht : t ≠ [] := ne_nil_of_pyStrip_ne_nil h1
  dsimp only
  rw [if_pos ⟨ht, h1⟩]
  dsimp only
  rw [if_pos ht]

theorem clean_strip_only {t : List Char} (hx : hasHexPref t = false)
    (hm : noMarkerOccurs t = true) (hl : 3 ≤ (pyStrip t).length) :
    clean_extracted_text t = some (pyStrip t) := by
  have hne : t ≠ [] := by rintro rfl; rw [pyStrip_nil] at hl; simp at hl
  have htl : 3 ≤ t.length := le_trans hl (pyStrip_length_le t)
  simp only [clean_extracted_text, strip_hex_marker_of_no_pref hx,
    strip_hex_bare_of_no_pref hx, removeMarkers_of_no_marker hm]
  rw [if_neg hne, if_neg (by rintro ⟨h2, -, -⟩; omega), if_neg (by omega)]

/-! Lemmas for the no-long-printable-run property. -/

theorem noRun8_cons {c : Char} {cs : List Char} (h : noRun8 (c :: cs) = true) :
    ((c :: cs).takeWhile isCharsetChar).length < 8 ∧ noRun8 cs = true := by
  unfold noRun8 at h
  simp only [Bool.and_eq_true, decide_eq_true_eq] at h
  exact h

theorem noRun8_tail {c : Char} {cs : List Char} (h : noRun8 (c :: cs) = true) :
    noRun8 cs = true := (noRun8_cons h).2

theorem noRun8_dropWhile (p : Char → Bool) :
    ∀ l : List Char, noRun8 l = true → noRun8 (l.dropWhile p) = true := by
  intro l
  induction l with
  | nil => intro h; exact h
  | cons c cs ih =>
    intro h
    rw [List.dropWhile_cons]
    split
    · exact ih (noRun8_tail h)
    · exact h

theorem noRun8_drop : ∀ (n : Nat) (l : List Char), noRun8 l = true →
    noRun8 (l.drop n) = true := by
  intro n
  induction n with
  | zero => intro l h; exact h
  | succ m ih =>
    intro l h
    cases l with
    | nil => exact h
    | cons c cs => rw [List.drop_succ_cons]; exact ih cs (noRun8_tail h)

theorem prefix_all_le_takeWhile (p : Char → Bool) :
    ∀ (pre l : List Char), pre <+: l → pre.all p = true →
      pre.length ≤ (l.takeWhile p).length := by
  intro pre
  induction pre with
  | nil => intro l _ _; simp
  | cons a pre' ih =>
    intro l hpre hall
    cases l with
    | nil =>
      obtain ⟨t, ht⟩ := hpre
      exact absurd ht (by simp)
    | cons b bs =>
      obtain ⟨t, ht⟩ := hpre
      injection ht with h1 h2
      subst h1
      simp only [List.all_cons, Bool.and_eq_true] at hall
      simp only [List.takeWhile_cons, hall.1, if_true, List.length_cons]
      have := ih bs ⟨t, h2⟩ hall.2
      omega

theorem charset_of_letter {c : Char} (h : isLetterChar c = true) :
    isCharsetChar c = true := by
  unfold isCharsetChar
  simp [h]

theorem charset_of_letterOrSpace {c : Char} (h : isLetterOrSpaceChar c = true) :
    isCharsetChar c = true := by
  unfold isLetterOrSpaceChar at h
  unfold isCharsetChar
  rcases (Bool.or_eq_true _ _).mp h with h1 | h1 <;> simp [h1]

theorem nsGroupSearchF_none :
    ∀ (fuel : Nat) (l : List Char), l.length ≤ fuel → noRun8 l = true →
      nsGroupSearchF fuel l = none := by
  intro fuel
  induction fuel with
  | zero =>
    intro l hl _
    have : l = [] := List.length_eq_zero.mp (Nat.le_zero.mp hl)
    subst this
    rfl
  | succ n ih =>
    intro l hl hr
    cases l with
    | nil => rfl
    | cons c cs =>
      have hcs : cs.length ≤ n := by simpa using hl
      unfold nsGroupSearchF
      split
      · next hch =>
        have hlt := (noRun8_cons hr).1
        simp only [List.takeWhile_cons, hch, if_true, List.length_cons] at hlt
        rw [if_neg (by simp only [List.length_cons]; omega)]
        split
        · rfl
        · exact ih _ (le_trans (List.dropWhile_suffix isCharsetChar).length_le hcs)
            (noRun8_dropWhile _ cs (noRun8_tail hr))
      · exact ih cs hcs (noRun8_tail hr)

theorem nsGroupSearch_none {l : List Char} (h : noRun8 l = true) :
    nsGroupSearch l = none :=
  nsGroupSearchF_none l.length l le_rfl h

theorem findallP1F_nil :
    ∀ (fuel : Nat) (l : List Char), l.length ≤ fuel → noRun8 l = true →
      findallP1F fuel l = [] := by
  intro fuel
  induction fuel with
  | zero =>
    intro l hl _
    have : l = [] := List.length_eq_zero.mp (Nat.le_zero.mp hl)
    subst this
    rfl
  | succ n ih =>
    intro l hl hr
    cases l with
    | nil => rfl
    | cons c cs =>
      have hcs : cs.length ≤ n := by simpa using hl
      unfold findallP1F
      split
      · rw [nsGroupSearch_none (noRun8_drop 8 _ hr)]
        exact ih cs hcs (noRun8_tail hr)
      · exact ih cs hcs (noRun8_tail hr)

theorem findallP2F_nil :
    ∀ (fuel : Nat) (l : List Char), l.length ≤ fuel → noRun8 l = true →
      findallP2F fuel l = [] := by
  intro fuel
  induction fuel with
  | zero =>
    intro l hl _
    have : l = [] := List.length_eq_zero.mp (Nat.le_zero.mp hl)
    subst this
    rfl
  | succ n ih =>
    intro l hl hr
    cases l with
    | nil => rfl
    | cons c cs =>
      have hcs : cs.length ≤ n := by simpa using hl
      unfold findallP2F
      split
      · next hch =>
        have hlt := (noRun8_cons hr).1
        simp only [List.takeWhile_cons, hch, if_true, List.length_cons] at hlt
        rw [if_neg (by simp only [List.length_cons]; omega)]
        exact ih _ (le_trans (List.dropWhile_suffix isCharsetChar).length_le hcs)
          (noRun8_dropWhile _ cs (noRun8_tail hr))
      · exact ih cs hcs (noRun8_tail hr)

theorem findallP3F_nil :
    ∀ (fuel : Nat) (l : List Char), l.length ≤ fuel → noRun8 l = true →
      findallP3F fuel l = [] := by
  intro fuel
  induction fuel with
  | zero =>
    intro l hl _
    have : l = [] := List.length_eq_zero.mp (Nat.le_zero.mp hl)
    subst this
    rfl
  | succ n ih =>
    intro l hl hr
    cases l with
    | nil => rfl
    | cons c cs =>
      have hcs : cs.length ≤ n := by simpa using hl
      unfold findallP3F
      split
      · next hlc =>
        rw [if_neg]
        · exact ih _ (le_trans (List.dropWhile_suffix isLetterChar).length_le hcs)
            (noRun8_dropWhile _ cs (noRun8_tail hr))
        · rintro ⟨h4, h5⟩
          have hsplit : (c :: cs.takeWhile isLetterChar) ++ cs.dropWhile isLetterChar
              = c :: cs := by
            simp [List.takeWhile_append_dropWhile]
          have hmpre : (cs.dropWhile isLetterChar).takeWhile isLetterOrSpaceChar
              <+: cs.dropWhile isLetterChar := List.takeWhile_prefix _
          have hpre : (c :: cs.takeWhile isLetterChar) ++
              (cs.dropWhile isLetterChar).takeWhile isLetterOrSpaceChar <+: c :: cs := by
            rw [← hsplit]
            exact (List.prefix_append_right_inj _).mpr hmpre
          have hall : ((c :: cs.takeWhile isLetterChar) ++
              (cs.dropWhile isLetterChar).takeWhile isLetterOrSpaceChar).all
                isCharsetChar = true := by
            rw [List.all_append]
            refine (Bool.and_eq_true _ _).mpr ⟨?_, ?_⟩
            · rw [List.all_eq_true]
              intro x hx
              rcases List.mem_cons.mp hx with rfl | hx'
              · exact charset_of_letter hlc
              · exact charset_of_letter (List.mem_takeWhile_imp hx')
            · rw [List.all_eq_true]
              intro x hx
              exact charset_of_letterOrSpace (List.mem_takeWhile_imp hx)
          have hle := prefix_all_le_takeWhile isCharsetChar _ _ hpre hall
          have hlt := (noRun8_cons hr).1
          rw [List.length_append] at hle
          omega
      · exact ih cs hcs (noRun8_tail hr)

theorem findallP1_nil {s : List Char} (h : noRun8 s = true) : findallP1 s = [] :=
  findallP1F_nil s.length s le_rfl h

theorem findallP2_nil {s : List Char} (h : noRun8 s = true) : findallP2 s = [] :=
  findallP2F_nil s.length s le_rfl h

theorem findallP3_nil {s : List Char} (h : noRun8 s = true) : findallP3 s = [] :=
  findallP3F_nil s.length s le_rfl h

/-! Lemmas about the chronological sort. -/

theorem mem_insertMsg {r x : CleanMessage} {l : List CleanMessage} :
    x ∈ insertMsg r l ↔ x = r ∨ x ∈ l := by
  induction l with
  | nil => simp [insertMsg]
  | cons y ys ih =>
    unfold insertMsg
    split
    · simp only [List.mem_cons, ih]
      tauto
    · simp only [List.mem_cons]

theorem sorted_insertMsg {r : CleanMessage} {l : List CleanMessage}
    (h : l.Sorted (fun a b => a.date ≤ b.date)) :
    (insertMsg r l).Sorted (fun a b => a.date ≤ b.date) := by
  induction l with
  | nil => simp [insertMsg]
  | cons y ys ih =>
    have h' := List.sorted_cons.mp h
    unfold insertMsg
    split
    · next hle =>
      rw [List.sorted_cons]
      constructor
      · intro b hb
        rcases mem_insertMsg.mp hb with rfl | hb'
        · exact hle
        · exact h'.1 b hb'
      · exact ih h'.2
    · next hgt =>
      rw [List.sorted_cons]
      constructor
      · intro b hb
        rcases List.mem_cons.mp hb with rfl | hb'
        · omega
        · exact le_trans (by omega) (h'.1 b hb')
      · exact h

theorem filter_insertMsg (d : Int) {r : CleanMessage} {l : List CleanMessage}
    (h : l.Sorted (fun a b => a.date ≤ b.date)) :
    (insertMsg r l).filter (fun x => x.date == d) =
      l.filter (fun x => x.date == d) ++ (if r.date == d then [r] else []) := by
  induction l with
  | nil =>
    simp only [insertMsg, List.filter_cons, List.filter_nil, List.nil_append]
  | cons y ys ih =>
    have h' := List.sorted_cons.mp h
    unfold insertMsg
    split
    · next hle =>
      rw [List.filter_cons, List.filter_cons]
      split
      · rw [ih h'.2]
        simp
      · exact ih h'.2
    · next hgt =>
      rw [List.filter_cons]
      split
      · next hrd =>
        have hrdeq : r.date = d := by simpa using hrd
        have hnil : (y :: ys).filter (fun x => x.date == d) = [] := by
          rw [List.filter_eq_nil_iff]
          intro a ha had
          have hadeq : a.date = d := by simpa using had
          rcases List.mem_cons.mp ha with rfl | ha'
          · omega
          · have := h'.1 a ha'
            omega
        rw [hnil]
        simp [hrdeq]
      · next hrd =>
        simp [hrd]

theorem insertMsg_perm (r : CleanMessage) (l : List CleanMessage) :
    List.Perm (insertMsg r l) (r :: l) := by
  induction l with
  | nil => simp [insertMsg]
  | cons y ys ih =>
    unfold insertMsg
    split
    · exact (List.Perm.cons y ih).trans (List.Perm.swap r y ys)
    · exact List.Perm.refl _

theorem sortMessages_aux :
    ∀ (l acc : List CleanMessage), acc.Sorted (fun a b => a.date ≤ b.date) →
      (List.foldl (fun acc r => insertMsg r acc) acc l).Sorted
        (fun a b => a.date ≤ b.date) ∧
      ∀ d : Int, (List.foldl (fun acc r => insertMsg r acc) acc l).filter
          (fun x => x.date == d) =
        acc.filter (fun x => x.date == d) ++ l.filter (fun x => x.date == d) := by
  intro l
  induction l with
  | nil => intro acc h; exact ⟨h, fun d => by simp⟩
  | cons a l' ih =>
    intro acc h
    rw [List.foldl_cons]
    obtain ⟨hs, hf⟩ := ih (insertMsg a acc) (sorted_insertMsg h)
    refine ⟨hs, fun d => ?_⟩
    rw [hf d, filter_insertMsg d h, List.filter_cons]
    split
    · simp
    · simp

theorem sortMessages_perm_aux :
    ∀ (l acc : List CleanMessage),
      List.Perm (List.foldl (fun acc r => insertMsg r acc) acc l) (acc ++ l) := by
  intro l
  induction l with
  | nil => intro acc; simp
  | cons a l' ih =>
    intro acc
    rw [List.foldl_cons]
    refine (ih (insertMsg a acc)).trans ?_
    refine (List.Perm.append_right l' (insertMsg_perm a acc)).trans ?_
    exact List.perm_middle.symm

/-! Lemmas relating the matcher to its candidate-list formulation. -/

theorem firstMatch_eq_find (ms : List (List Char)) :
    firstMatch ms = Option.map pyStrip (ms.find? filter_ok) := by
  induction ms with
  | nil => rfl
  | cons m tl ih =>
    unfold firstMatch
    cases h : filter_ok m with
    | true => simp [h, List.find?_cons_of_pos]
    | false => simp [h, List.find?_cons_of_neg, ih]

/-! Claim theorems. -/

/-- C1 (amended): a plain text that is non-blank after trimming, carries
no leading `x`-hex prefix, contains no marker substring and trims to at
least 3 characters is returned by `recoverText` as the trimmed plain
text, unchanged, for any archive blob. -/
theorem claim_C1_amended_plain_text (t : List Char) (a : Option (List Char))
    (h1 : pyStrip t ≠ []) (h2 : hasHexPref t = false)
    (h3 : noMarkerOccurs t = true) (h4 : 3 ≤ (pyStrip t).length) :
    recoverText (some t) a = some (pyStrip t) := by
  rw [recoverText_plain a h1]
  exact clean_strip_only h2 h3 h4

/-- Witness for C1 (amended) at a concrete plain text and archive blob. -/
theorem claim_C1_witness :
    pyStrip ("hello there".toList) ≠ [] ∧
    recoverText (some ("hello there".toList)) (some ("x".toList)) =
      some (pyStrip ("hello there".toList)) :=
  ⟨by decide,
   claim_C1_amended_plain_text _ _ (by decide) (by decide) (by decide) (by decide)⟩

/-- Counterexample for C1 as stated: the cleaner is applied to the
plain-text field too, so a plain text that is non-blank after trimming
but starts with an `x`-hex prefix is returned altered, not merely
trimmed. -/
theorem claim_C1_counterexample :
    pyStrip ("xab hello".toList) ≠ [] ∧
    recoverText (some ("xab hello".toList)) none = some ("hello".toList) ∧
    ("hello".toList : List Char) ≠ pyStrip ("xab hello".toList) :=
  ⟨by decide, by decide, by decide⟩

/-- C2 (amended): cleaning is idempotent on outputs free of residual hex
prefixes and marker occurrences: if cleaning `s` yields `t` and `t` has
no `x`-hex prefix and no marker substring, then cleaning `t` yields `t`
again. -/
theorem claim_C2_amended_idempotent {s t : List Char}
    (h : clean_extracted_text s = some t) (h2 : hasHexPref t = false)
    (h3 : noMarkerOccurs t = true) :
    clean_extracted_text t = some t := by
  obtain ⟨rfl, hl⟩ := clean_some h
  exact clean_fixedpoint h2 h3 (pyStrip_idem _) hl

/-- Witness for C2 (amended) at a concrete string. -/
theorem claim_C2_witness :
    clean_extracted_text ("hello world".toList) = some ("hello world".toList) ∧
    hasHexPref ("hello world".toList) = false ∧
    noMarkerOccurs ("hello world".toList) = true ∧
    clean_extracted_text ("hello world".toList) = some ("hello world".toList) :=
  ⟨by decide, by decide, by decide,
   @claim_C2_amended_idempotent ("hello world".toList) ("hello world".toList)
     (by decide) (by decide) (by decide)⟩

/-- Counterexample for C2 as stated: cleaning is not idempotent, because
a leading whitespace can shield an `x`-hex prefix from the first
application and expose it to the second. -/
theorem claim_C2_counterexample :
    clean_extracted_text (" xab hello".toList) = some ("xab hello".toList) ∧
    clean_extracted_text ("xab hello".toList) = some ("hello".toList) ∧
    ("hello".toList : List Char) ≠ "xab hello".toList :=
  ⟨by decide, by decide, by decide⟩

/-- C3 (amended): any present recovered text has length at least 3.  The
other two invariants stated by the claim (not composed solely of
control characters, no structural-marker prefix) fail; see the
counterexample. -/
theorem claim_C3_amended_length {p a : Option (List Char)} {t : List Char}
    (h : recoverText p a = some t) : 3 ≤ t.length := by
  obtain ⟨ct, hct⟩ := recoverText_clean h
  exact (clean_some hct).2

/-- Witness for C3 (amended) at a concrete record. -/
theorem claim_C3_witness :
    recoverText (some ("hello there".toList)) none = some ("hello there".toList) ∧
    3 ≤ ("hello there".toList).length :=
  ⟨by decide,
   @claim_C3_amended_length (some ("hello there".toList)) none
     ("hello there".toList) (by decide)⟩

/-- Counterexample for C3 as stated: a plain text beginning with the
`null` marker, and an all-control plain text, both pass through recovery
unchanged. -/
theorem claim_C3_counterexample :
    recoverText (some ("null ok then".toList)) none = some ("null ok then".toList) ∧
    isPrefL ("null".toList) ("null ok then".toList) = true ∧
    recoverText (some [Char.ofNat 1, Char.ofNat 1, Char.ofNat 1]) none =
      some [Char.ofNat 1, Char.ofNat 1, Char.ofNat 1] ∧
    ([Char.ofNat 1, Char.ofNat 1, Char.ofNat 1]).all
      (fun c => decide (c.toNat < 32)) = true :=
  ⟨by decide, by decide, by decide, by decide⟩

/-- C4 (amended): on the spec's second concrete scenario the recovered
text is `123Hello there, how are you doing today?xyz` of length at least
3: the `NSString` marker is bypassed by the matcher, but the leading
digits are not stripped, because the prefix-strip rule only removes an
`x` followed by hex digits. -/
theorem claim_C4_amended_scenario2 :
    recoverText (some [])
      (some ("NSString123Hello there, how are you doing today?xyz".toList)) =
      some ("123Hello there, how are you doing today?xyz".toList) ∧
    3 ≤ ("123Hello there, how are you doing today?xyz".toList).length :=
  ⟨by decide, by decide⟩

/-- Counterexample for C4 as stated: the recovered text is neither the
claimed digit-free string nor a prefix of it, since the leading digits
survive cleaning. -/
theorem claim_C4_counterexample :
    recoverText (some [])
      (some ("NSString123Hello there, how are you doing today?xyz".toList)) =
      some ("123Hello there, how are you doing today?xyz".toList) ∧
    "123Hello there, how are you doing today?xyz".toList ≠
      "Hello there, how are you doing today?xyz".toList ∧
    isPrefL ("123Hello there, how are you doing today?xyz".toList)
      ("Hello there, how are you doing today?xyz".toList) = false :=
  ⟨by decide, by decide, by decide⟩

/-- C5 (amended): on strings free of the two quote-fragment heads the
removal step of the cleaner agrees with the specification's
exact-literal-removal reading (removing exactly `streamtyped` and
`utableData` wherever they occur); on other strings the quote-initiated
patterns additionally consume the characters following the fragment up
to the next quote. -/
theorem claim_C5_amended_removal {l : List Char}
    (h1 : containsL fragClassHead l = false)
    (h2 : containsL fragDotsHead l = false) :
    removeMarkers l = removeMarkersSpec l := by
  unfold removeMarkers removeMarkersSpec
  rw [removeFragAllL_of_not_contains h1, removeFragAllL_of_not_contains h2,
    removeAllL_of_not_contains h1, removeAllL_of_not_contains h2]

/-- Witness for C5 (amended) at a concrete string containing a
format-name marker. -/
theorem claim_C5_witness :
    containsL fragClassHead ("abstreamtypedcd hello".toList) = false ∧
    containsL fragDotsHead ("abstreamtypedcd hello".toList) = false ∧
    removeMarkers ("abstreamtypedcd hello".toList) =
      removeMarkersSpec ("abstreamtypedcd hello".toList) :=
  ⟨by decide, by decide, claim_C5_amended_removal (by decide) (by decide)⟩

/-- Counterexample for C5 as stated: after a quote fragment the code also
removes the following non-marker characters, so the removal step is not
an exact-literal removal. -/
theorem claim_C5_counterexample :
    removeMarkers ("hello ".toList ++ fragDotsHead ++ "JUNK more".toList) ≠
      removeMarkersSpec ("hello ".toList ++ fragDotsHead ++ "JUNK more".toList) ∧
    clean_extracted_text ("hello ".toList ++ fragDotsHead ++ "JUNK more".toList) =
      some ("hello".toList) :=
  ⟨by decide, by decide⟩

/-- C6: an archive representation with no printable run of length 8 or
more yields no candidate from any of the three patterns: the matcher
returns nothing. -/
theorem claim_C6_no_long_run_no_match {s : List Char} (h : noRun8 s = true) :
    extract_complete_text s = none := by
  unfold extract_complete_text
  split
  · rfl
  · rw [findallP1_nil h, findallP2_nil h, findallP3_nil h]
    rfl

/-- Witness for C6 at a concrete representation whose longest printable
run has length 7. -/
theorem claim_C6_witness :
    noRun8 ("abc def".toList) = true ∧
    extract_complete_text ("abc def".toList) = none :=
  ⟨by decide, claim_C6_no_long_run_no_match (by decide)⟩

/-- C7: the chronological normalizer sorts ascending by the integer
timestamp, permutes its input, and preserves the original relative order
of records with equal timestamps (stability). -/
theorem claim_C7_sort_stable (l : List CleanMessage) :
    (sortMessages l).Sorted (fun a b => a.date ≤ b.date) ∧
    List.Perm (sortMessages l) l ∧
    ∀ d : Int, (sortMessages l).filter (fun x => x.date == d) =
      l.filter (fun x => x.date == d) := by
  obtain ⟨hs, hf⟩ := sortMessages_aux l [] (by simp)
  refine ⟨hs, ?_, fun d => by simpa using hf d⟩
  simpa using sortMessages_perm_aux l []

/-- C8: for every input string the matcher returns the first candidate,
in order of appearance, that passes the rejection filter, trying pattern
(a) exhaustively, then (b), then (c), and nothing when no candidate is
accepted. -/
theorem claim_C8_first_accepted (s : List Char) :
    extract_complete_text s = matchArchiveTextSpec s := by
  unfold extract_complete_text matchArchiveTextSpec
  split
  · rfl
  · rw [firstMatch_eq_find, firstMatch_eq_find, firstMatch_eq_find,
      List.find?_append, List.find?_append]
    cases h1 : (findallP1 s).find? filter_ok with
    | some r => rfl
    | none =>
      cases h2 : (findallP2 s).find? filter_ok with
      | some r => rfl
      | none => rfl

/-- C9: the matcher can return a string of length at most 7: the
greater-than-7 length filter applies to the raw match before stripping,
so a mostly-whitespace match of length 10 is accepted and returned as a
2-character string. -/
theorem claim_C9_short_return :
    extract_complete_text ("        ab".toList) = some ("ab".toList) ∧
    ("ab".toList).length ≤ 7 :=
  ⟨by decide, by decide⟩

/-- C10: every string the cleaner returns is strip-invariant, i.e. has
no leading or trailing whitespace. -/
theorem claim_C10_output_trimmed {s t : List Char}
    (h : clean_extracted_text s = some t) : pyStrip t = t := by
  obtain ⟨rfl, -⟩ := clean_some h
  exact pyStrip_idem _

/-- Witness for C10 at a concrete cleaned string. -/
theorem claim_C10_witness :
    clean_extracted_text ("hello".toList) = some ("hello".toList) ∧
    pyStrip ("hello".toList) = "hello".toList :=
  ⟨by decide,
   @claim_C10_output_trimmed ("hello".toList) ("hello".toList) (by decide)⟩
